import Mathlib

/-!
# Verification of the ZipCrypto brute-force core (hackattic)

Shallow embedding of the password-recovery engine:
* the ZipCrypto cipher primitives from `src/utils/zip.rs`
  (`crc32_update`, `update_keys`, `decrypt_byte`,
  `verify_zip_crypto_password`, `read_eocd`, `read_file_content`);
* the candidate generator from `src/challenges/brute_force_zip.rs`
  (`spawn_password_generator`'s mixed-radix counter);
* the worker success path from `create_worker_handle`.

Machine integers (`u32`, `u16`, `u8`) are modelled as `Nat` with explicit
`% 2 ^ 32` (resp. `% 2 ^ 16`, `% 2 ^ 8`) exactly where the Rust code uses
wrapping arithmetic or truncating casts.  Byte buffers are `List Nat`.
Rust panics (out-of-bounds slicing, failing `try_into().unwrap()`) are
modelled by `Option`: `none` is a panic.
-/

/-! ## Cipher engine (`src/utils/zip.rs`, `verify_zip_crypto_password` internals) -/

/-- One round of the bit-at-a-time CRC-32 inner loop:
`if crc & 1 != 0 { crc = (crc >> 1) ^ 0xEDB88320 } else { crc >>= 1 }`. -/
def crc32Round (crc : Nat) : Nat :=
  if crc &&& 1 ≠ 0 then (crc >>> 1) ^^^ 0xEDB88320 else crc >>> 1

/-- `crc32_update` from `zip.rs`: `crc ^= byte` then eight rounds of
`crc32Round`. -/
def crc32_update (crc byte : Nat) : Nat :=
  crc32Round^[8] (crc ^^^ byte)

/-- `update_keys` from `zip.rs`.  The Rust tuple `(u32, u32, u32)` is a
`Nat × Nat × Nat`; `wrapping_add` / `wrapping_mul` become explicit
`% 2 ^ 32`, and the `as u8` cast of `keys.1 >> 24` becomes `% 2 ^ 8`. -/
def update_keys (keys : Nat × Nat × Nat) (byte : Nat) : Nat × Nat × Nat :=
  let k0 := crc32_update keys.1 byte
  let k1a := (keys.2.1 + (k0 &&& 0xff)) % 2 ^ 32
  let k1 := (k1a * 134775813 % 2 ^ 32 + 1) % 2 ^ 32
  let k2 := crc32_update keys.2.2 ((k1 >>> 24) % 2 ^ 8)
  (k0, k1, k2)

/-- `decrypt_byte` from `zip.rs`:
`temp = keys.2 | 2; ((temp.wrapping_mul(temp ^ 1)) >> 8) & 0xff`. -/
def decrypt_byte (keys : Nat × Nat × Nat) : Nat :=
  let temp := keys.2.2 ||| 2
  ((temp * (temp ^^^ 1) % 2 ^ 32) >>> 8) &&& 0xff

/-- Key initialization from `verify_zip_crypto_password`: start from
`(0x12345678, 0x23456789, 0x34567890)` and feed every password byte
through `update_keys`.  The password is given as its UTF-8 byte list. -/
def initKeys (password : List Nat) : Nat × Nat × Nat :=
  password.foldl update_keys (0x12345678, 0x23456789, 0x34567890)

/-- The decryption loop of `verify_zip_crypto_password`: for each
ciphertext byte, XOR with the keystream byte, then feed the decrypted
byte back through `update_keys`. -/
def decryptBytes (keys : Nat × Nat × Nat) : List Nat → List Nat
  | [] => []
  | c :: rest =>
    let p := c ^^^ decrypt_byte keys
    p :: decryptBytes (update_keys keys p) rest

/-- The CRC-32 computation at the end of `verify_zip_crypto_password`:
accumulator starts at `0xFFFFFFFF`, each byte goes through
`crc32_update`, final XOR with `0xFFFFFFFF`. -/
def crc32Of (data : List Nat) : Nat :=
  (data.foldl crc32_update 0xFFFFFFFF) ^^^ 0xFFFFFFFF

/-- `verify_zip_crypto_password` from `zip.rs`: reject buffers shorter
than the 12-byte ZipCrypto header, otherwise decrypt the whole buffer,
drop the 12-byte header and compare the CRC-32 of the rest with the
expected value. -/
def verify_zip_crypto_password (encrypted_data : List Nat)
    (password : List Nat) (expected_crc32 : Nat) : Bool :=
  if encrypted_data.length < 12 then false
  else crc32Of ((decryptBytes (initKeys password) encrypted_data).drop 12)
        == expected_crc32

/-- One decryption step as performed inside the loop of
`verify_zip_crypto_password`: produce the plaintext byte and the advanced
key state. -/
def decryptStep (keys : Nat × Nat × Nat) (c : Nat) : Nat × (Nat × Nat × Nat) :=
  let p := c ^^^ decrypt_byte keys
  (p, update_keys keys p)

/-! Spec-side formulation of the cipher step, following the wording of the
specification for comparison with the source-derived `decryptStep`. -/

/-- The spec's `update_keys` equations:
`key0 = crc32_update(key0, byte)`,
`key1 = (key1 + (key0 & 0xFF)) * 134775813 + 1` (32-bit wraparound),
`key2 = crc32_update(key2, key1 >> 24)`. -/
def update_keys_spec (keys : Nat × Nat × Nat) (byte : Nat) : Nat × Nat × Nat :=
  let k0 := crc32_update keys.1 byte
  let k1 := ((keys.2.1 + (k0 &&& 0xFF)) * 134775813 + 1) % 2 ^ 32
  let k2 := crc32_update keys.2.2 (k1 >>> 24)
  (k0, k1, k2)

/-- The spec's keystream byte: `t = key2 | 2; ((t * (t ^ 1)) >> 8) & 0xFF`. -/
def keystream_byte_spec (keys : Nat × Nat × Nat) : Nat :=
  let t := keys.2.2 ||| 2
  ((t * (t ^^^ 1)) >>> 8) &&& 0xFF

/-- The spec's decryption step: XOR the ciphertext byte with the keystream
byte and feed the plaintext byte into the spec's `update_keys`. -/
def decryptStepSpec (keys : Nat × Nat × Nat) (c : Nat) : Nat × (Nat × Nat × Nat) :=
  let p := c ^^^ keystream_byte_spec keys
  (p, update_keys_spec keys p)

/-! ### Arithmetic helper lemmas -/

theorem mod_pow_shift_and (x : Nat) :
    ((x % 2 ^ 32) >>> 8) &&& 0xff = (x >>> 8) &&& 0xff := by
  have h1 : ∀ y : Nat, y &&& 0xff = y % 2 ^ 8 := by
    intro y
    have := Nat.and_pow_two_sub_one_eq_mod y 8
    simpa using this
  rw [h1, h1, Nat.shiftRight_eq_div_pow, Nat.shiftRight_eq_div_pow]
  have h2 : (2 : Nat) ^ 32 = 2 ^ 8 * 2 ^ 24 := by norm_num
  rw [h2, Nat.mod_mul_right_div_self]
  exact Nat.mod_mod_of_dvd _ (by norm_num)

theorem key1_mod_collapse (a : Nat) :
    (a % 2 ^ 32 * 134775813 % 2 ^ 32 + 1) % 2 ^ 32
      = (a * 134775813 + 1) % 2 ^ 32 := by
  have h : (2 : Nat) ^ 32 = 4294967296 := by norm_num
  rw [h]
  omega

theorem shiftRight24_lt (x : Nat) (hx : x < 2 ^ 32) : x >>> 24 < 2 ^ 8 := by
  rw [Nat.shiftRight_eq_div_pow]
  omega

/-! ## C1: the decryption step matches the spec equations -/

/-- **C1.** For every cipher state and ciphertext byte, one decryption
step of the source (`decryptStep`: keystream byte, XOR, `update_keys`
feedback) coincides with the equations stated in the specification
(`decryptStepSpec`): keystream `((t * (t XOR 1)) >> 8) & 0xFF` with
`t = key2 | 2`, plaintext fed into `update_keys` with
`key0 = crc32_update(key0, byte)`,
`key1 = (key1 + (key0 & 0xFF)) * 134775813 + 1` mod `2^32`,
`key2 = crc32_update(key2, key1 >> 24)`. -/
theorem decryptStep_matches_spec (keys : Nat × Nat × Nat) (c : Nat) :
    decryptStep keys c = decryptStepSpec keys c := by
  obtain ⟨k0, k1, k2⟩ := keys
  have hks : decrypt_byte (k0, k1, k2) = keystream_byte_spec (k0, k1, k2) := by
    unfold decrypt_byte keystream_byte_spec
    exact mod_pow_shift_and _
  have hup : ∀ b : Nat, update_keys (k0, k1, k2) b = update_keys_spec (k0, k1, k2) b := by
    intro b
    unfold update_keys update_keys_spec
    have hmod : ((k1 + (crc32_update k0 b &&& 0xff)) % 2 ^ 32 * 134775813 % 2 ^ 32 + 1) % 2 ^ 32
        = ((k1 + (crc32_update k0 b &&& 0xFF)) * 134775813 + 1) % 2 ^ 32 :=
      key1_mod_collapse _
    have hlt : ((k1 + (crc32_update k0 b &&& 0xFF)) * 134775813 + 1) % 2 ^ 32 < 2 ^ 32 :=
      Nat.mod_lt _ (by norm_num)
    have h24 : (((k1 + (crc32_update k0 b &&& 0xFF)) * 134775813 + 1) % 2 ^ 32) >>> 24 % 2 ^ 8
        = (((k1 + (crc32_update k0 b &&& 0xFF)) * 134775813 + 1) % 2 ^ 32) >>> 24 :=
      Nat.mod_eq_of_lt (shiftRight24_lt _ hlt)
    simp only [hmod]
    rw [h24]
  unfold decryptStep decryptStepSpec
  simp only [hks, hup]

/-! ## C10: buffers shorter than the 12-byte header are rejected -/

/-- **C10.** For every password and expected CRC-32, the verifier returns
`false` whenever the encrypted data is shorter than the 12-byte ZipCrypto
header (the early `encrypted_data.len() < ZIP_CRYPTO_HEADER_SIZE` guard). -/
theorem verify_short_input_false (data pwd : List Nat) (crc : Nat)
    (h : data.length < 12) :
    verify_zip_crypto_password data pwd crc = false := by
  unfold verify_zip_crypto_password
  rw [if_pos h]

/-- Witness for C10 at the empty buffer. -/
theorem verify_short_input_false_witness :
    verify_zip_crypto_password [] [] 0 = false :=
  verify_short_input_false [] [] 0 (by decide)

/-! ## C4: CRC-32 equality is the accept criterion -/

/-- **C4.** For every payload of length at least 12, every password and
every expected checksum, the verifier returns `true` only if the CRC-32 of
the decrypted bytes after the 12-byte header (bit-at-a-time reflected
polynomial `0xEDB88320` via `crc32_update`, accumulator starting at
`0xFFFFFFFF`, final XOR `0xFFFFFFFF`) equals the recorded CRC-32. -/
theorem verify_true_implies_crc_match (data pwd : List Nat) (crc : Nat)
    (h12 : 12 ≤ data.length)
    (h : verify_zip_crypto_password data pwd crc = true) :
    (((decryptBytes (initKeys pwd) data).drop 12).foldl crc32_update
        0xFFFFFFFF) ^^^ 0xFFFFFFFF = crc := by
  unfold verify_zip_crypto_password at h
  rw [if_neg (by omega), beq_iff_eq] at h
  simpa [crc32Of] using h

set_option maxRecDepth 100000 in
/-- Witness for C4 at a 12-byte zero buffer with the empty password. -/
theorem verify_true_implies_crc_match_witness :
    (((decryptBytes (initKeys []) (List.replicate 12 0)).drop 12).foldl
        crc32_update 0xFFFFFFFF) ^^^ 0xFFFFFFFF = 0 :=
  verify_true_implies_crc_match (List.replicate 12 0) [] 0 (by decide)
    (by decide)

/-! ## Central directory entry (`CentralDirectoryEntry` in `zip.rs`) -/

/-- `CentralDirectoryEntry` from `zip.rs`.  The filename is kept as its
raw byte list. -/
structure CentralDirectoryEntry where
  filename : List Nat
  general_purpose_flag : Nat
  compression_method : Nat
  last_mod_time : Nat
  crc32 : Nat
  compressed_size : Nat
  uncompressed_size : Nat
  local_header_offset : Nat
deriving DecidableEq, Repr

/-- An all-zero central directory entry, used as a concrete test entry. -/
def entryZero : CentralDirectoryEntry :=
  ⟨[], 0, 0, 0, 0, 0, 0, 0⟩

/-! ## C2: there is no header check-byte rejection -/

set_option maxRecDepth 100000 in
/-- **C2 counterexample.**  With the all-zero 12-byte ciphertext and the
empty password, the 12th decrypted byte (252) differs from the high byte
of `entryZero.last_mod_time` (0), yet `verify_zip_crypto_password`
returns `true` (the expected CRC-32 of the empty remaining payload is 0):
the code performs no check-byte rejection at all. -/
theorem verify_no_check_byte_counterexample :
    (decryptBytes (initKeys []) (List.replicate 12 0)).getD 11 0 ≠
        entryZero.last_mod_time >>> 8
      ∧ verify_zip_crypto_password (List.replicate 12 0) [] 0 = true := by
  constructor
  · decide
  · decide

/-- **C2 (amended).**  `verify_zip_crypto_password` takes no
last-modification-time input and performs no header check-byte test: even
when the 12th decrypted byte differs from the high byte of an entry's
last-modification time, the candidate is accepted whenever the CRC-32 of
the decrypted bytes after the 12-byte header equals the expected value. -/
theorem verify_ignores_check_byte (ct pwd : List Nat) (crc lmt : Nat)
    (h12 : 12 ≤ ct.length)
    (_hmismatch : (decryptBytes (initKeys pwd) ct).getD 11 0 ≠ lmt >>> 8)
    (hcrc : crc32Of ((decryptBytes (initKeys pwd) ct).drop 12) = crc) :
    verify_zip_crypto_password ct pwd crc = true := by
  unfold verify_zip_crypto_password
  rw [if_neg (by omega), hcrc]
  simp

set_option maxRecDepth 100000 in
/-- Witness for the amended C2 at the all-zero 12-byte ciphertext. -/
theorem verify_ignores_check_byte_witness :
    verify_zip_crypto_password (List.replicate 12 0) [] 0 = true :=
  verify_ignores_check_byte (List.replicate 12 0) [] 0 0 (by decide)
    (by decide) (by decide)

/-! ## C3: the verifier accepts the engine's own encryption -/

/-- Modelled from the spec: the repository contains no encryption routine,
only the decryption direction; this is the inverse cipher described by the
spec ("XORed with ciphertext to get plaintext, and the plaintext byte is
then fed into `update_keys`"): the keystream byte is XORed with each
plaintext byte and the plaintext byte advances the key state. -/
def encryptBytes (keys : Nat × Nat × Nat) : List Nat → List Nat
  | [] => []
  | p :: rest =>
    (p ^^^ decrypt_byte keys) :: encryptBytes (update_keys keys p) rest

theorem length_encryptBytes (keys : Nat × Nat × Nat) (ps : List Nat) :
    (encryptBytes keys ps).length = ps.length := by
  induction ps generalizing keys with
  | nil => rfl
  | cons p rest ih => simp [encryptBytes, ih]

theorem decryptBytes_encryptBytes (keys : Nat × Nat × Nat) (ps : List Nat) :
    decryptBytes keys (encryptBytes keys ps) = ps := by
  induction ps generalizing keys with
  | nil => rfl
  | cons p rest ih =>
    simp only [encryptBytes, decryptBytes, Nat.xor_cancel_right]
    exact congrArg (List.cons p) (ih _)

/-- **C3.**  For every password and plaintext, encrypting a 12-byte
header followed by the plaintext with the engine's own cipher — keys
initialized from `(0x12345678, 0x23456789, 0x34567890)` and every
password byte fed through `update_keys` in order — yields a ciphertext
that `verify_zip_crypto_password` accepts together with that password and
the CRC-32 of the plaintext. -/
theorem verify_accepts_own_encryption (pwd header pt : List Nat)
    (hh : header.length = 12) :
    verify_zip_crypto_password (encryptBytes (initKeys pwd) (header ++ pt))
      pwd (crc32Of pt) = true := by
  unfold verify_zip_crypto_password
  rw [length_encryptBytes, decryptBytes_encryptBytes]
  rw [if_neg (by simp [List.length_append, hh])]
  rw [← hh, List.drop_left]
  simp

/-- Witness for C3: empty password, zero header, empty plaintext. -/
theorem verify_accepts_own_encryption_witness :
    verify_zip_crypto_password
      (encryptBytes (initKeys []) (List.replicate 12 0 ++ [])) []
      (crc32Of []) = true :=
  verify_accepts_own_encryption [] (List.replicate 12 0) [] (by decide)

/-! ## Candidate generator (`spawn_password_generator` in
`src/challenges/brute_force_zip.rs`)

The generator keeps, per password length `L`, a vector of `L` alphabet
indices acting as a mixed-radix counter.  Each iteration emits the
password `indices.map (charset[·])`, then increments the rightmost index;
an index reaching `charset.len()` is reset to `0` with a carry to the
left; a carry escaping the leftmost position ends the length. -/

/-- The carry loop of the generator, acting on the reversed index vector
(least-significant digit first): increment the first digit; on overflow
(`index = n`) reset it to `0` and carry into the rest; `none` when the
carry escapes past the last digit (`pos < 0` in the source). -/
def incR (n : Nat) : List Nat → Option (List Nat)
  | [] => none
  | d :: rest =>
    if d + 1 < n then some ((d + 1) :: rest)
    else (incR n rest).map (fun t => 0 :: t)

/-- The generator's index increment (`while pos >= 0` loop): the source
walks the index vector from the rightmost position, so we increment the
reversed vector and reverse back.  `none` means the length is finished. -/
def increment (n : Nat) (indices : List Nat) : Option (List Nat) :=
  (incR n indices.reverse).map List.reverse

/-- The emission loop for one length: emit the current index vector, then
increment; stop when the increment overflows.  `fuel` bounds the number
of iterations (the run for length `L` over an `n`-symbol alphabet uses
`fuel = n ^ L`, which `genIndices_eq` shows is exact). -/
def genFrom (n : Nat) : Nat → List Nat → List (List Nat)
  | 0, _ => []
  | fuel + 1, st =>
    st :: (match increment n st with
           | none => []
           | some st2 => genFrom n fuel st2)

/-- All index vectors emitted for one length `L`, starting from the
all-zero vector (`vec![0; length]` in the source). -/
def genIndices (n L : Nat) : List (List Nat) :=
  genFrom n (n ^ L) (List.replicate L 0)

/-- All passwords emitted for one length: each index vector is mapped
through the charset (`indices.iter().map(|&i| charset[i])`). -/
def genPasswords (charset : List Char) (L : Nat) : List (List Char) :=
  (genIndices charset.length L).map (fun ds => ds.map (fun i => charset.getD i 'a'))

/-- The whole emission sequence: lengths taken in increasing order from
the inclusive range `[lo, hi]` (`for length in 4..=6` in the source,
parametrised here by the range bounds). -/
def genRange (charset : List Char) (lo hi : Nat) : List (List Char) :=
  (List.range' lo (hi + 1 - lo)).flatMap (genPasswords charset)

/-! ### Base-`n` digits, least significant first -/

/-- The `L` base-`n` digits of `k`, least significant first. -/
def digitsLSB (n : Nat) : Nat → Nat → List Nat
  | 0, _ => []
  | L + 1, k => (k % n) :: digitsLSB n L (k / n)

/-- The `L` base-`n` digits of `k`, most significant first: the
generator's index vector for the `k`-th password of a length. -/
def digitsMSB (n L k : Nat) : List Nat :=
  (digitsLSB n L k).reverse

/-- Numeric value of a most-significant-first digit vector. -/
def valMSB (n : Nat) : List Nat → Nat
  | [] => 0
  | d :: rest => d * n ^ rest.length + valMSB n rest

theorem digitsLSB_length (n L k : Nat) : (digitsLSB n L k).length = L := by
  induction L generalizing k with
  | zero => rfl
  | succ L ih => simp [digitsLSB, ih]

theorem digitsMSB_length (n L k : Nat) : (digitsMSB n L k).length = L := by
  simp [digitsMSB, digitsLSB_length]

theorem digitsLSB_lt (n L k : Nat) (hn : 0 < n) :
    ∀ d ∈ digitsLSB n L k, d < n := by
  induction L generalizing k with
  | zero => intro d hd; simp [digitsLSB] at hd
  | succ L ih =>
    intro d hd
    simp only [digitsLSB, List.mem_cons] at hd
    rcases hd with h | h
    · exact h ▸ Nat.mod_lt _ hn
    · exact ih _ d h

theorem digitsLSB_zero (n L : Nat) : digitsLSB n L 0 = List.replicate L 0 := by
  induction L with
  | zero => rfl
  | succ L ih => simp [digitsLSB, List.replicate_succ, ih]

theorem incR_digitsLSB (n L k : Nat) (hn : 0 < n) (hk : k < n ^ L) :
    incR n (digitsLSB n L k) =
      if k + 1 < n ^ L then some (digitsLSB n L (k + 1)) else none := by
  induction L generalizing k with
  | zero =>
    have : k = 0 := by simpa using hk
    subst this
    simp [digitsLSB, incR]
  | succ L ih =>
    have hq := Nat.div_add_mod k n
    have hrlt : k % n < n := Nat.mod_lt k hn
    have hdiv : k / n < n ^ L := by
      rw [Nat.div_lt_iff_lt_mul hn]
      calc k < n ^ (L + 1) := hk
        _ = n ^ L * n := by ring
    by_cases hc : k % n + 1 < n
    · have h1 : k + 1 = n * (k / n) + (k % n + 1) := by omega
      have hmod : (k + 1) % n = k % n + 1 := by
        rw [h1, Nat.mul_add_mod, Nat.mod_eq_of_lt hc]
      have hdiv2 : (k + 1) / n = k / n := by
        rw [h1, Nat.mul_add_div hn, Nat.div_eq_of_lt hc, Nat.add_zero]
      have hk1 : k + 1 < n ^ (L + 1) := by
        rcases Nat.lt_or_ge (k + 1) (n ^ (L + 1)) with h | h
        · exact h
        · exfalso
          have he : k + 1 = n ^ (L + 1) := by omega
          have h0 : (k + 1) % n = 0 := by
            rw [he, pow_succ]
            exact Nat.mul_mod_left _ _
          omega
      simp [digitsLSB, incR, hc, hk1, hmod, hdiv2]
    · have heq : k + 1 = n * (k / n + 1) := by
        have h1 : k + 1 = n * (k / n) + n := by omega
        rw [h1]
        ring
      have hmod1 : (k + 1) % n = 0 := by
        rw [heq]
        exact Nat.mul_mod_right _ _
      have hdiv1 : (k + 1) / n = k / n + 1 := by
        rw [heq]
        exact Nat.mul_div_cancel_left _ hn
      have hiff : k + 1 < n ^ (L + 1) ↔ k / n + 1 < n ^ L := by
        rw [heq, pow_succ, mul_comm (n ^ L) n]
        exact Nat.mul_lt_mul_left hn
      simp only [digitsLSB, incR, hc, if_false]
      rw [ih _ hdiv]
      by_cases hk1 : k + 1 < n ^ (L + 1)
      · have h2 : k / n + 1 < n ^ L := hiff.mp hk1
        simp [hk1, h2, digitsLSB, hmod1, hdiv1]
      · have h2 : ¬ (k / n + 1 < n ^ L) := fun h => hk1 (hiff.mpr h)
        simp [hk1, h2]

theorem increment_digitsMSB (n L k : Nat) (hn : 0 < n) (hk : k < n ^ L) :
    increment n (digitsMSB n L k) =
      if k + 1 < n ^ L then some (digitsMSB n L (k + 1)) else none := by
  unfold increment digitsMSB
  rw [List.reverse_reverse, incR_digitsLSB n L k hn hk]
  by_cases h : k + 1 < n ^ L <;> simp [h]

theorem genFrom_digits (n L : Nat) (hn : 0 < n) :
    ∀ m k, k + m = n ^ L →
      genFrom n m (digitsMSB n L k) = (List.range' k m).map (digitsMSB n L) := by
  intro m
  induction m with
  | zero => intro k hk; simp [genFrom]
  | succ m ih =>
    intro k hk
    have hklt : k < n ^ L := by omega
    simp only [genFrom]
    rw [increment_digitsMSB n L k hn hklt]
    by_cases h1 : k + 1 < n ^ L
    · rw [if_pos h1]
      have hrec := ih (k + 1) (by omega)
      rw [List.range'_succ]
      simp only [List.map_cons]
      rw [← hrec]
    · have hm : m = 0 := by omega
      subst hm
      rw [if_neg h1]
      simp [List.range'_succ]

theorem genIndices_eq (n L : Nat) (hn : 0 < n) :
    genIndices n L = (List.range (n ^ L)).map (digitsMSB n L) := by
  unfold genIndices
  have h0 : List.replicate L 0 = digitsMSB n L 0 := by
    simp [digitsMSB, digitsLSB_zero]
  rw [h0, genFrom_digits n L hn (n ^ L) 0 (by omega), List.range_eq_range']

theorem valMSB_lt (n : Nat) (ds : List Nat)
    (h : ∀ d ∈ ds, d < n) : valMSB n ds < n ^ ds.length := by
  induction ds with
  | nil => simp [valMSB]
  | cons d rest ih =>
    simp only [valMSB, List.length_cons]
    have hd : d < n := h d (by simp)
    have hr : valMSB n rest < n ^ rest.length :=
      ih (fun x hx => h x (by simp [hx]))
    calc d * n ^ rest.length + valMSB n rest
        < d * n ^ rest.length + n ^ rest.length := by omega
      _ = (d + 1) * n ^ rest.length := by ring
      _ ≤ n * n ^ rest.length := Nat.mul_le_mul_right _ hd
      _ = n ^ (rest.length + 1) := by ring

theorem digitsMSB_succ (n L k : Nat) :
    digitsMSB n (L + 1) k = digitsMSB n L (k / n) ++ [k % n] := by
  simp [digitsMSB, digitsLSB]

theorem valMSB_append_single (n : Nat) (ds : List Nat) (d : Nat) :
    valMSB n (ds ++ [d]) = valMSB n ds * n + d := by
  induction ds with
  | nil => simp [valMSB]
  | cons e rest ih =>
    have hlen : (rest ++ [d]).length = rest.length + 1 := by simp
    show valMSB n (e :: (rest ++ [d])) = valMSB n (e :: rest) * n + d
    simp only [valMSB]
    rw [ih, hlen]
    ring

theorem valMSB_digitsMSB (n L k : Nat) (hn : 0 < n) (hk : k < n ^ L) :
    valMSB n (digitsMSB n L k) = k := by
  induction L generalizing k with
  | zero =>
    have : k = 0 := by simpa using hk
    subst this
    rfl
  | succ L ih =>
    have hdiv : k / n < n ^ L := by
      rw [Nat.div_lt_iff_lt_mul hn]
      calc k < n ^ (L + 1) := hk
        _ = n ^ L * n := by ring
    rw [digitsMSB_succ, valMSB_append_single, ih _ hdiv]
    rw [mul_comm]
    exact Nat.div_add_mod k n

theorem digitsMSB_valMSB (n : Nat) (hn : 0 < n) :
    ∀ ds : List Nat, (∀ d ∈ ds, d < n) →
      digitsMSB n ds.length (valMSB n ds) = ds := by
  intro ds
  induction ds using List.reverseRecOn with
  | nil => intro _; rfl
  | append_singleton init d ih =>
    intro h
    have hd : d < n := h d (by simp)
    have hinit : ∀ x ∈ init, x < n := fun x hx => h x (by simp [hx])
    have hmod : (valMSB n init * n + d) % n = d := by
      rw [mul_comm, Nat.mul_add_mod, Nat.mod_eq_of_lt hd]
    have hdivv : (valMSB n init * n + d) / n = valMSB n init := by
      rw [mul_comm, Nat.mul_add_div hn, Nat.div_eq_of_lt hd, Nat.add_zero]
    have hlen : (init ++ [d]).length = init.length + 1 := by simp
    rw [hlen, valMSB_append_single, digitsMSB_succ, hmod, hdivv, ih hinit]

theorem lex_of_valMSB_lt (n : Nat) :
    ∀ a b : List Nat, a.length = b.length → (∀ d ∈ b, d < n) →
      valMSB n a < valMSB n b → List.Lex (· < ·) a b := by
  intro a
  induction a with
  | nil =>
    intro b hlen _ hv
    cases b with
    | nil => simp [valMSB] at hv
    | cons y b' => simp at hlen
  | cons x a' ih =>
    intro b hlen hb hv
    cases b with
    | nil => simp at hlen
    | cons y b' =>
      have hlen2 : a'.length = b'.length := by simpa using hlen
      rcases Nat.lt_trichotomy x y with h | h | h
      · exact List.Lex.rel h
      · subst h
        apply List.Lex.cons
        apply ih b' hlen2 (fun d hd => hb d (by simp [hd]))
        rw [valMSB, valMSB, hlen2] at hv
        omega
      · exfalso
        have hvb' : valMSB n b' < n ^ b'.length := by
          have hnpos : 0 < n := by
            rcases Nat.eq_zero_or_pos n with hz | hp
            · exfalso; have := hb y (by simp); omega
            · exact hp
          exact valMSB_lt n b' (fun d hd => hb d (by simp [hd]))
        rw [valMSB, valMSB, hlen2] at hv
        have hstep : (y + 1) * n ^ b'.length ≤ x * n ^ b'.length :=
          Nat.mul_le_mul_right _ h
        have hexp : (y + 1) * n ^ b'.length = y * n ^ b'.length + n ^ b'.length := by
          ring
        omega

theorem genIndices_mem (n L : Nat) (hn : 0 < n) (ds : List Nat) :
    ds ∈ genIndices n L ↔ ds.length = L ∧ ∀ d ∈ ds, d < n := by
  rw [genIndices_eq n L hn]
  simp only [List.mem_map, List.mem_range]
  constructor
  · rintro ⟨k, hk, rfl⟩
    refine ⟨digitsMSB_length n L k, fun d hd => ?_⟩
    exact digitsLSB_lt n L k hn d (by simpa [digitsMSB] using hd)
  · rintro ⟨hlen, hb⟩
    refine ⟨valMSB n ds, ?_, ?_⟩
    · have := valMSB_lt n ds hb
      rwa [hlen] at this
    · have := digitsMSB_valMSB n hn ds hb
      rwa [hlen] at this

theorem genIndices_nodup (n L : Nat) (hn : 0 < n) : (genIndices n L).Nodup := by
  rw [genIndices_eq n L hn]
  apply List.Nodup.map_on _ (List.nodup_range _)
  intro x hx y hy hxy
  rw [List.mem_range] at hx hy
  have h1 := valMSB_digitsMSB n L x hn hx
  have h2 := valMSB_digitsMSB n L y hn hy
  rw [← h1, ← h2, hxy]

theorem map_getD_inj (cs : List Char) (hnd : cs.Nodup) :
    ∀ a b : List Nat, (∀ d ∈ a, d < cs.length) → (∀ d ∈ b, d < cs.length) →
      a.map (fun i => cs.getD i 'a') = b.map (fun i => cs.getD i 'a') → a = b := by
  intro a
  induction a with
  | nil =>
    intro b _ _ h
    cases b with
    | nil => rfl
    | cons y b' => simp at h
  | cons x a' ih =>
    intro b ha hb h
    cases b with
    | nil => simp at h
    | cons y b' =>
      simp only [List.map_cons, List.cons.injEq] at h
      obtain ⟨h1, h2⟩ := h
      have hx : x < cs.length := ha x (by simp)
      have hy : y < cs.length := hb y (by simp)
      rw [List.getD_eq_get cs 'a' hx, List.getD_eq_get cs 'a' hy] at h1
      have hfin : (⟨x, hx⟩ : Fin cs.length) = ⟨y, hy⟩ := (hnd.get_inj_iff).mp h1
      have hxy : x = y := by simpa using hfin
      subst hxy
      exact congrArg (List.cons x)
        (ih b' (fun d hd => ha d (by simp [hd])) (fun d hd => hb d (by simp [hd])) h2)

theorem map_indexOf_getD (cs : List Char) (hnd : cs.Nodup) (ds : List Nat)
    (hb : ∀ d ∈ ds, d < cs.length) :
    (ds.map (fun i => cs.getD i 'a')).map (fun c => cs.indexOf c) = ds := by
  rw [List.map_map]
  have h : ∀ d ∈ ds,
      ((fun c => cs.indexOf c) ∘ fun i => cs.getD i 'a') d = id d := by
    intro d hd
    have hlt := hb d hd
    simp only [Function.comp_apply, id]
    rw [List.getD_eq_get cs 'a' hlt]
    simpa using List.get_indexOf hnd ⟨d, hlt⟩
  rw [List.map_congr_left h, List.map_id]

theorem genPasswords_nodup (cs : List Char) (L : Nat) (hn : 0 < cs.length)
    (hnd : cs.Nodup) : (genPasswords cs L).Nodup := by
  unfold genPasswords
  apply List.Nodup.map_on _ (genIndices_nodup cs.length L hn)
  intro a ha b hb h
  exact map_getD_inj cs hnd a b ((genIndices_mem cs.length L hn a).mp ha).2
    ((genIndices_mem cs.length L hn b).mp hb).2 h

theorem genPasswords_mem (cs : List Char) (L : Nat) (hn : 0 < cs.length)
    (s : List Char) :
    s ∈ genPasswords cs L ↔ s.length = L ∧ ∀ c ∈ s, c ∈ cs := by
  unfold genPasswords
  simp only [List.mem_map]
  constructor
  · rintro ⟨ds, hds, rfl⟩
    obtain ⟨hlen, hb⟩ := (genIndices_mem _ _ hn ds).mp hds
    refine ⟨by simp [hlen], ?_⟩
    intro c hc
    simp only [List.mem_map] at hc
    obtain ⟨i, hi, rfl⟩ := hc
    have hlt : i < cs.length := hb i hi
    rw [List.getD_eq_get cs 'a' hlt]
    exact List.get_mem _ _ _
  · rintro ⟨hlen, hc⟩
    refine ⟨s.map (fun c => cs.indexOf c), ?_, ?_⟩
    · rw [genIndices_mem _ _ hn]
      refine ⟨by simp [hlen], ?_⟩
      intro d hd
      simp only [List.mem_map] at hd
      obtain ⟨c, hcs, rfl⟩ := hd
      exact List.indexOf_lt_length.mpr (hc c hcs)
    · rw [List.map_map]
      have h : ∀ c ∈ s,
          ((fun i => cs.getD i 'a') ∘ fun c => cs.indexOf c) c = id c := by
        intro c hcs
        have hlt : cs.indexOf c < cs.length := List.indexOf_lt_length.mpr (hc c hcs)
        simp only [Function.comp, id]
        rw [List.getD_eq_get cs 'a' hlt]
        exact List.indexOf_get hlt
      rw [List.map_congr_left h, List.map_id]

/-! ## C5: the generator enumerates each length exactly, in order -/

/-- **C5.**  For every nonempty duplicate-free ordered alphabet and every
length `L`, the generator's emission list for `L` contains no duplicates,
contains exactly the length-`L` strings over the alphabet, and is
strictly increasing in lexicographic order by alphabet index (rightmost
index incremented first, carry to the left, carry past the leftmost
position ending the length).  Lengths are taken in increasing order from
the configured inclusive range; in particular for the alphabet
`{a, b}` and range `1..=2` the emitted sequence is exactly
`a, b, aa, ab, ba, bb`. -/
theorem generator_enumerates_exactly (cs : List Char) (L : Nat)
    (hn : 0 < cs.length) (hnd : cs.Nodup) :
    ((genPasswords cs L).Nodup
      ∧ (∀ s, s ∈ genPasswords cs L ↔ s.length = L ∧ ∀ c ∈ s, c ∈ cs)
      ∧ List.Chain'
          (fun s t => List.Lex (· < ·)
            (s.map (fun c => cs.indexOf c)) (t.map (fun c => cs.indexOf c)))
          (genPasswords cs L))
    ∧ genRange ['a', 'b'] 1 2
        = [['a'], ['b'], ['a', 'a'], ['a', 'b'], ['b', 'a'], ['b', 'b']] := by
  refine ⟨⟨genPasswords_nodup cs L hn hnd,
    fun s => genPasswords_mem cs L hn s, ?_⟩, by decide⟩
  unfold genPasswords
  rw [genIndices_eq _ _ hn, List.map_map, List.chain'_map]
  obtain ⟨s, hs⟩ : ∃ s, cs.length ^ L = s + 1 :=
    ⟨cs.length ^ L - 1, by have := pow_pos hn L; omega⟩
  rw [hs, show s + 1 = Nat.succ s from rfl, List.chain'_range_succ]
  intro m hm
  have hb1 : ∀ d ∈ digitsMSB cs.length L m, d < cs.length :=
    fun d hd => digitsLSB_lt _ _ _ hn d (by simpa [digitsMSB] using hd)
  have hb2 : ∀ d ∈ digitsMSB cs.length L (m + 1), d < cs.length :=
    fun d hd => digitsLSB_lt _ _ _ hn d (by simpa [digitsMSB] using hd)
  simp only [Function.comp]
  rw [map_indexOf_getD cs hnd _ hb1, map_indexOf_getD cs hnd _ hb2]
  apply lex_of_valMSB_lt cs.length
  · rw [digitsMSB_length, digitsMSB_length]
  · exact hb2
  · rw [valMSB_digitsMSB _ _ _ hn (by omega), valMSB_digitsMSB _ _ _ hn (by omega)]
    omega

/-- Witness for C5 at the two-symbol alphabet and range `1..=2`. -/
theorem generator_enumerates_exactly_witness :
    genRange ['a', 'b'] 1 2
      = [['a'], ['b'], ['a', 'a'], ['a', 'b'], ['b', 'a'], ['b', 'b']] :=
  (generator_enumerates_exactly ['a', 'b'] 1 (by decide) (by decide)).2

/-! ## Archive reader (`src/utils/zip.rs`)

Multi-byte reads are little-endian fixed-width slice conversions
(`u16::from_le_bytes(bytes[i..i+2].try_into().unwrap())`); an
out-of-bounds slice panics in Rust and is `none` here. -/

/-- Little-endian `u16` read at offset `i`; `none` models the panic when
`bytes[i..i+2]` is out of bounds. -/
def u16LeAt? (bytes : List Nat) (i : Nat) : Option Nat :=
  if i + 2 ≤ bytes.length then
    some (bytes.getD i 0 + 256 * bytes.getD (i + 1) 0)
  else none

/-- Little-endian `u32` read at offset `i`; `none` models the panic when
`bytes[i..i+4]` is out of bounds. -/
def u32LeAt? (bytes : List Nat) (i : Nat) : Option Nat :=
  if i + 4 ≤ bytes.length then
    some (bytes.getD i 0 + 256 * bytes.getD (i + 1) 0
      + 65536 * bytes.getD (i + 2) 0 + 16777216 * bytes.getD (i + 3) 0)
  else none

/-- The Rust slice `&bytes[a..b]`; `none` models the panic when the range
is out of bounds. -/
def sliceAt? (bytes : List Nat) (a b : Nat) : Option (List Nat) :=
  if a ≤ b ∧ b ≤ bytes.length then some ((bytes.drop a).take (b - a))
  else none

/-- The filename-length field of the Local File Header at `offset`, as the
`u16` value read by `read_file_content` at `offset + 26`. -/
def localFilenameLen (bytes : List Nat) (offset : Nat) : Nat :=
  bytes.getD (offset + 26) 0 + 256 * bytes.getD (offset + 27) 0

/-- The extra-field-length field of the Local File Header at `offset`, as
the `u16` value read by `read_file_content` at `offset + 28`. -/
def localExtraLen (bytes : List Nat) (offset : Nat) : Nat :=
  bytes.getD (offset + 28) 0 + 256 * bytes.getD (offset + 29) 0

/-- `read_file_content` from `zip.rs`: re-read the filename length and
extra-field length from the Local File Header at
`cde.local_header_offset`, then slice
`[offset + 30 + filename_len + extra_len ..+ compressed_size]`. -/
def read_file_content (bytes : List Nat) (cde : CentralDirectoryEntry) :
    Option (List Nat) :=
  match u16LeAt? bytes (cde.local_header_offset + 26),
      u16LeAt? bytes (cde.local_header_offset + 28) with
  | some filename_len, some extra_len =>
    sliceAt? bytes (cde.local_header_offset + 30 + filename_len + extra_len)
      (cde.local_header_offset + 30 + filename_len + extra_len
        + cde.compressed_size)
  | _, _ => none

/-! ## C6: payload location -/

theorem u16LeAt_in_bounds (bytes : List Nat) (i : Nat)
    (h : i + 2 ≤ bytes.length) :
    u16LeAt? bytes i = some (bytes.getD i 0 + 256 * bytes.getD (i + 1) 0) := by
  unfold u16LeAt?
  rw [if_pos h]

/-- **C6 (amended).**  When the whole payload slice (not just the Local
File Header) lies within the buffer, `read_file_content` re-reads the
local filename and extra-field lengths from the Local File Header at
`entry.local_header_offset` and returns the slice starting at
`local_header_offset + 30 + filename_len + extra_len` whose length is
exactly the entry's `compressed_size`. -/
theorem read_file_content_spec (bytes : List Nat)
    (cde : CentralDirectoryEntry)
    (h : cde.local_header_offset + 30
        + localFilenameLen bytes cde.local_header_offset
        + localExtraLen bytes cde.local_header_offset
        + cde.compressed_size ≤ bytes.length) :
    read_file_content bytes cde
      = some ((bytes.drop (cde.local_header_offset + 30
            + localFilenameLen bytes cde.local_header_offset
            + localExtraLen bytes cde.local_header_offset)).take
          cde.compressed_size)
    ∧ ∀ payload, read_file_content bytes cde = some payload →
        payload.length = cde.compressed_size := by
  have h26 : u16LeAt? bytes (cde.local_header_offset + 26)
      = some (localFilenameLen bytes cde.local_header_offset) := by
    rw [u16LeAt_in_bounds bytes _ (by omega)]
    unfold localFilenameLen
    have he : cde.local_header_offset + 26 + 1 = cde.local_header_offset + 27 := by
      omega
    rw [he]
  have h28 : u16LeAt? bytes (cde.local_header_offset + 28)
      = some (localExtraLen bytes cde.local_header_offset) := by
    rw [u16LeAt_in_bounds bytes _ (by omega)]
    unfold localExtraLen
    have he : cde.local_header_offset + 28 + 1 = cde.local_header_offset + 29 := by
      omega
    rw [he]
  have hred : read_file_content bytes cde
      = sliceAt? bytes
          (cde.local_header_offset + 30
            + localFilenameLen bytes cde.local_header_offset
            + localExtraLen bytes cde.local_header_offset)
          (cde.local_header_offset + 30
            + localFilenameLen bytes cde.local_header_offset
            + localExtraLen bytes cde.local_header_offset
            + cde.compressed_size) := by
    unfold read_file_content
    rw [h26, h28]
  have hmain : read_file_content bytes cde
      = some ((bytes.drop (cde.local_header_offset + 30
            + localFilenameLen bytes cde.local_header_offset
            + localExtraLen bytes cde.local_header_offset)).take
          cde.compressed_size) := by
    rw [hred]
    unfold sliceAt?
    rw [if_pos (by constructor <;> omega)]
    congr 1
    congr 1
    omega
  refine ⟨hmain, ?_⟩
  intro payload hp
  rw [hmain] at hp
  injection hp with hp
  rw [← hp]
  rw [List.length_take, List.length_drop]
  omega

/-- Witness for the amended C6: a 35-byte buffer, a Local File Header at
offset 0 with zero-length filename and extra field, compressed size 5. -/
theorem read_file_content_spec_witness :
    read_file_content (List.replicate 35 0) ⟨[], 0, 0, 0, 0, 5, 0, 0⟩
      = some (((List.replicate 35 0).drop (0 + 30
            + localFilenameLen (List.replicate 35 0) 0
            + localExtraLen (List.replicate 35 0) 0)).take 5)
    ∧ ∀ payload,
        read_file_content (List.replicate 35 0) ⟨[], 0, 0, 0, 0, 5, 0, 0⟩
          = some payload → payload.length = 5 :=
  read_file_content_spec (List.replicate 35 0) ⟨[], 0, 0, 0, 0, 5, 0, 0⟩
    (by decide)

/-- **C6 counterexample.**  A 30-byte buffer containing the referenced
Local File Header in full (offset 0, zero filename/extra lengths), with
`compressed_size = 5`: the payload slice `[30, 35)` exceeds the buffer,
so the Rust code panics (`none` here) instead of returning a slice of
length `compressed_size`. -/
theorem read_file_content_counterexample :
    read_file_content (List.replicate 30 0) ⟨[], 0, 0, 0, 0, 5, 0, 0⟩
      = none := by decide

/-! ## End of Central Directory (`read_eocd` in `zip.rs`) -/

/-- `EndOfCentralDirectory` from `zip.rs`; the comment is kept as its raw
byte list. -/
structure EndOfCentralDirectory where
  disk_number : Nat
  start_disk : Nat
  entries_on_disk : Nat
  total_entries : Nat
  central_directory_size : Nat
  central_directory_offset : Nat
  comment_length : Nat
  comment : List Nat
deriving DecidableEq, Repr

/-- The 4-byte EOCD signature `PK\x05\x06`. -/
def eocdSig : List Nat := [0x50, 0x4b, 0x05, 0x06]

/-- The comparison `&bytes[i..(i + 4)] == EOCD_SIGNATURE` performed by the
backward scan in `read_eocd`. -/
def sigAt (bytes : List Nat) (i : Nat) : Bool :=
  (bytes.drop i).take 4 == eocdSig

/-- The backward scan of `read_eocd`: starting from `i`, return the first
position (counting down, stopping before 0) whose 4 bytes match the EOCD
signature; `pos` stays `0` when no position in `[1, i]` matches
(`let mut pos = 0; while i > 0 { ... i -= 1 }`). -/
def scanFrom (bytes : List Nat) : Nat → Nat
  | 0 => 0
  | i + 1 => if sigAt bytes (i + 1) then i + 1 else scanFrom bytes i

/-- The fixed-layout field reads of `read_eocd` at position `pos`, in
source order; any out-of-bounds read is a panic (`none`). -/
def parseEocdAt (bytes : List Nat) (pos : Nat) :
    Option EndOfCentralDirectory :=
  match u16LeAt? bytes (pos + 4), u16LeAt? bytes (pos + 6),
      u16LeAt? bytes (pos + 8), u16LeAt? bytes (pos + 10),
      u32LeAt? bytes (pos + 12), u32LeAt? bytes (pos + 16),
      u16LeAt? bytes (pos + 20) with
  | some dn, some sd, some ed, some te, some cds, some cdo, some cl =>
    (sliceAt? bytes (pos + 22) (pos + 22 + cl)).map
      (fun cb => ⟨dn, sd, ed, te, cds, cdo, cl, cb⟩)
  | _, _, _, _, _, _, _ => none

/-- `read_eocd` from `zip.rs`: scan backward from
`bytes.len().saturating_sub(4)` for the EOCD signature, then parse the
record at the found position (position 0 when the scan finds nothing). -/
def read_eocd (bytes : List Nat) : Option EndOfCentralDirectory :=
  parseEocdAt bytes (scanFrom bytes (bytes.length - 4))

/-! ## C7: EOCD scan behaviour -/

theorem scanFrom_eq_of_sig (bytes : List Nat) (i : Nat)
    (hsig : sigAt bytes i = true) (h1 : 1 ≤ i) :
    ∀ m, i ≤ m → (∀ j, i < j → j ≤ m → sigAt bytes j = false) →
      scanFrom bytes m = i := by
  intro m
  induction m with
  | zero => intro him _; omega
  | succ m ih =>
    intro him hnone
    by_cases he : i = m + 1
    · subst he
      simp [scanFrom, hsig]
    · have hm1 : sigAt bytes (m + 1) = false :=
        hnone (m + 1) (by omega) (by omega)
      simp only [scanFrom, hm1, Bool.false_eq_true, if_false]
      exact ih (by omega) (fun j hj1 hj2 => hnone j hj1 (by omega))

theorem scanFrom_eq_zero (bytes : List Nat) :
    ∀ m, (∀ j, 1 ≤ j → j ≤ m → sigAt bytes j = false) →
      scanFrom bytes m = 0 := by
  intro m
  induction m with
  | zero => intro _; rfl
  | succ m ih =>
    intro hnone
    have hm1 : sigAt bytes (m + 1) = false := hnone (m + 1) (by omega) (by omega)
    simp only [scanFrom, hm1, Bool.false_eq_true, if_false]
    exact ih (fun j hj1 hj2 => hnone j hj1 (by omega))

theorem parseEocdAt_none_of_short (bytes : List Nat) (pos : Nat)
    (h : bytes.length < 22) : parseEocdAt bytes pos = none := by
  have h20 : u16LeAt? bytes (pos + 20) = none := by
    unfold u16LeAt?
    rw [if_neg (by omega)]
  unfold parseEocdAt
  rw [h20]
  cases u16LeAt? bytes (pos + 4) <;> cases u16LeAt? bytes (pos + 6) <;>
    cases u16LeAt? bytes (pos + 8) <;> cases u16LeAt? bytes (pos + 10) <;>
    cases u32LeAt? bytes (pos + 12) <;> cases u32LeAt? bytes (pos + 16) <;>
    rfl

/-- **C7 (amended).**  The EOCD locator scans backward from
`len - 4`, treating the first signature match found from the end
(positions `len - 4` down to 1; position 0 is never tested) as canonical,
and parses the record there.  It does not fail with an error when the
signature is absent: it parses at position 0 regardless, which misreads
bytes when the buffer is signature-free, and panics (`none`) whenever the
buffer is shorter than the 22-byte fixed EOCD layout. -/
theorem read_eocd_scan_behaviour (bytes : List Nat) :
    (∀ i, 1 ≤ i → i + 4 ≤ bytes.length → sigAt bytes i = true →
      (∀ j, j < bytes.length → i < j → sigAt bytes j = false) →
      read_eocd bytes = parseEocdAt bytes i)
    ∧ ((∀ j, j < bytes.length → 1 ≤ j → sigAt bytes j = false) →
      read_eocd bytes = parseEocdAt bytes 0)
    ∧ (bytes.length < 22 → read_eocd bytes = none) := by
  refine ⟨?_, ?_, ?_⟩
  · intro i hi hlen hsig hnone
    unfold read_eocd
    rw [scanFrom_eq_of_sig bytes i hsig hi (bytes.length - 4) (by omega)
      (fun j hj1 hj2 => hnone j (by omega) hj1)]
  · intro hnone
    unfold read_eocd
    rw [scanFrom_eq_zero bytes (bytes.length - 4)
      (fun j hj1 hj2 => hnone j (by omega) hj1)]
  · intro hshort
    unfold read_eocd
    exact parseEocdAt_none_of_short bytes _ hshort

/-- Witness for the amended C7: a 27-byte buffer with the signature at
position 5 is parsed there; the first clause of the theorem applies. -/
theorem read_eocd_scan_behaviour_witness :
    read_eocd (List.replicate 5 0 ++ eocdSig ++ List.replicate 18 0)
      = parseEocdAt (List.replicate 5 0 ++ eocdSig ++ List.replicate 18 0) 5 :=
  (read_eocd_scan_behaviour
      (List.replicate 5 0 ++ eocdSig ++ List.replicate 18 0)).1 5
    (by decide) (by decide) (by decide)
    (by decide)

/-- **C7 counterexample.**  A 30-byte all-zero buffer contains no EOCD
signature anywhere, yet `read_eocd` does not fail: it parses a (bogus)
all-zero record at position 0 instead of reporting a missing-EOCD
error. -/
theorem read_eocd_counterexample :
    (∀ j, j < 30 → sigAt (List.replicate 30 0) j = false)
      ∧ read_eocd (List.replicate 30 0)
          = some ⟨0, 0, 0, 0, 0, 0, 0, []⟩ := by
  constructor
  · decide
  · rfl

/-! ## C8: verification worker pool size (`run` in `brute_force_zip.rs`) -/

/-- `let num_workers = num_cpus::get() - 1;` — `usize` subtraction is
natural subtraction here (`num_cpus::get()` is always at least 1); there
is no lower bound applied. -/
def num_workers (cpus : Nat) : Nat := cpus - 1

/-- **C8 counterexample.**  On a single-CPU machine the pool size is 0,
not 1: no verification worker is spawned, contradicting the claimed floor
of 1. -/
theorem num_workers_counterexample : ¬ 1 ≤ num_workers 1 := by decide

/-- **C8 (amended).**  The verification pool size is exactly the CPU
count minus one, with no floor: at least one worker is spawned if and
only if the machine has at least two CPUs; a single-CPU machine gets
zero workers. -/
theorem num_workers_spec (cpus : Nat) (h : 1 ≤ cpus) :
    num_workers cpus = cpus - 1 ∧ (1 ≤ num_workers cpus ↔ 2 ≤ cpus) := by
  unfold num_workers
  omega

/-- Witness for the amended C8 at one CPU. -/
theorem num_workers_spec_witness :
    num_workers 1 = 1 - 1 ∧ (1 ≤ num_workers 1 ↔ 2 ≤ 1) :=
  num_workers_spec 1 (by decide)

/-! ## C9: result commit by concurrent workers
(`create_worker_handle` in `brute_force_zip.rs`)

After `verify_zip_crypto_password` succeeds, a worker performs, in source
order: lock and write `found_password`, lock and write
`decrypted_content`, then `password_found.store(true)`.  The found flag
is only checked at the top of the candidate loop, before verification —
not between verification and the writes.  We model the success path of a
worker as a sequence of atomic actions (each write is mutex-guarded) and
consider every interleaving of two workers that both verified
successfully before either raised the flag. -/

/-- One atomic shared-state action of a worker's success path, tagged by
the worker id. -/
inductive WorkerAction where
  | writePwd (w : Nat)
  | writeContent (w : Nat)
  | setFound (w : Nat)
deriving DecidableEq, Repr

/-- The shared search state: found flag, result-slot password and
decrypted content (represented by the id of the worker that wrote them). -/
structure SearchState where
  found : Bool
  pwd : Option Nat
  content : Option Nat
deriving DecidableEq, Repr

/-- Effect of one atomic action on the shared state (the source performs
each write unconditionally once verification has succeeded). -/
def stepAction (s : SearchState) : WorkerAction → SearchState
  | .writePwd w => { s with pwd := some w }
  | .writeContent w => { s with content := some w }
  | .setFound _ => { s with found := true }

/-- Execute a schedule of atomic actions from a state. -/
def execActions (s : SearchState) (acts : List WorkerAction) : SearchState :=
  acts.foldl stepAction s

/-- The shared state at the start of a run. -/
def initialState : SearchState := ⟨false, none, none⟩

/-- The success path of worker `w` (`create_worker_handle`): store the
password, store the decrypted content, raise the found flag. -/
def successPath (w : Nat) : List WorkerAction :=
  [.writePwd w, .writeContent w, .setFound w]

/-- Fuel-indexed interleaving enumeration; the fuel only drives structural
recursion and `xs.length + ys.length` is always sufficient. -/
def interleavingsAux : Nat → List WorkerAction → List WorkerAction →
    List (List WorkerAction)
  | _, [], ys => [ys]
  | _, x :: xs, [] => [x :: xs]
  | fuel + 1, x :: xs, y :: ys =>
    ((interleavingsAux fuel xs (y :: ys)).map (fun l => x :: l)) ++
      ((interleavingsAux fuel (x :: xs) ys).map (fun l => y :: l))
  | 0, _ :: _, _ :: _ => []

/-- All interleavings of two action sequences (every possible scheduling
of two threads whose own actions stay in program order). -/
def interleavings (xs ys : List WorkerAction) : List (List WorkerAction) :=
  interleavingsAux (xs.length + ys.length) xs ys

/-- **C9 counterexample.**  The schedule in which worker 1 runs its whole
success path (both writes and the flag-raise) before worker 2 starts its
own is a legal interleaving — worker 2 checks the found flag only before
verifying a candidate, never before entering the write path — and it
leaves worker 2's password in the result slot after worker 1's result had
already been committed: two results are committed and the first
successful worker's password is overwritten. -/
theorem worker_commit_counterexample :
    successPath 1 ++ successPath 2
        ∈ interleavings (successPath 1) (successPath 2)
      ∧ (execActions initialState (successPath 1)).pwd = some 1
      ∧ (execActions initialState (successPath 1 ++ successPath 2)).pwd
          = some 2 := by
  decide

/-- **C9 (amended).**  When two workers both pass verification before
either raises the found flag, each commits its result: under every
interleaving of the two success paths the found flag ends raised and the
result slot holds one of the two workers' passwords and one of the two
decrypted contents (each single write is mutex-guarded), but it is the
last writer — not necessarily the first successful worker — whose value
is retained. -/
theorem worker_commit_last_writer (sched : List WorkerAction)
    (h : sched ∈ interleavings (successPath 1) (successPath 2)) :
    (execActions initialState sched).found = true
      ∧ ((execActions initialState sched).pwd = some 1
          ∨ (execActions initialState sched).pwd = some 2)
      ∧ ((execActions initialState sched).content = some 1
          ∨ (execActions initialState sched).content = some 2) := by
  have hall : ∀ s ∈ interleavings (successPath 1) (successPath 2),
      (execActions initialState s).found = true
        ∧ ((execActions initialState s).pwd = some 1
            ∨ (execActions initialState s).pwd = some 2)
        ∧ ((execActions initialState s).content = some 1
            ∨ (execActions initialState s).content = some 2) := by decide
  exact hall sched h

/-- Witness for the amended C9 at the sequential schedule. -/
theorem worker_commit_last_writer_witness :
    (execActions initialState (successPath 1 ++ successPath 2)).found = true
      ∧ ((execActions initialState (successPath 1 ++ successPath 2)).pwd = some 1
          ∨ (execActions initialState (successPath 1 ++ successPath 2)).pwd
              = some 2)
      ∧ ((execActions initialState (successPath 1 ++ successPath 2)).content
            = some 1
          ∨ (execActions initialState (successPath 1 ++ successPath 2)).content
              = some 2) :=
  worker_commit_last_writer (successPath 1 ++ successPath 2) (by decide)
